import Mathlib

/-
Shallow embedding of the Markov text generator implemented in
src/text_utilities.py (class TextGenerator).

Modelling conventions:
 - Python strings are lists of characters; word tokens (the elements of the
   cleaned corpus) are again lists of characters (type Tok).
 - The transition dictionary built by markov_algorithm is an
   insertion-ordered association list from keys (lists of tokens, the
   Python tuples) to successor lists; dictionary lookup compares keys for
   structural equality exactly as Python tuple hashing/equality does.
 - random.choice is modelled by an injectable random source
   rand : Nat -> Nat together with a draw counter: the draw with counter c
   picks index rand c modulo the length of the choice list.  On an empty
   list the choice fails (Python raises IndexError), modelled as none.
 - A function that can let a Python exception escape returns an Option,
   with none standing for the uncaught exception (IndexError from list
   indexing or random.choice; KeyError is caught inside the sampler loop
   and is handled there, as in the source).
-/

/-- A word token: a Python string modelled as a list of characters. -/
abbrev Tok : Type := List Char

/-- Lookup in an insertion-ordered association list, leftmost binding wins.
This models Python dictionary access d[k]. -/
def alookup {α β : Type} [DecidableEq α] : List (α × β) → α → Option β
  | [], _ => none
  | p :: ps, a => if p.1 = a then some p.2 else alookup ps a

/-- One builder step of markov_algorithm (src/text_utilities.py lines
130-134): if the key seq is absent, bind it to the empty list, then append
the successor w to its successor list.  Absent keys are appended at the end
of the association list, matching Python dictionary insertion order. -/
def addTransition {α β : Type} [DecidableEq α]
    (m : List (α × List β)) (a : α) (w : β) : List (α × List β) :=
  if (alookup m a).isSome then
    m.map (fun p => if p.1 = a then (p.1, p.2 ++ [w]) else p)
  else
    m ++ [(a, [w])]

/-- The terminator token, the Python string consisting of a period
(src/text_utilities.py line 134). -/
def terminator : Tok := ['.']

/-- The filler successor of the sentinel key, a Python one-space string
(src/text_utilities.py line 119). -/
def filler : Tok := [' ']

/-- The window corpus[i : i + k], a contiguous slice of k tokens
(src/text_utilities.py line 126). -/
def window (corpus : List Tok) (i k : Nat) : List Tok :=
  (corpus.drop i).take k

/-- The successor expression of src/text_utilities.py line 134:
corpus[i + k] if that index is in range, else the terminator. -/
def succAt (corpus : List Tok) (i k : Nat) : Tok :=
  if i + k < corpus.length then corpus.getD (i + k) terminator else terminator

/-- The sequence of (key, successor) pairs scanned by the builder loop
for i in range(len(corpus) - prefix_length) (src/text_utilities.py
lines 122-134), in loop order. -/
def build_steps (corpus : List Tok) (k : Nat) : List (List Tok × Tok) :=
  (List.range (corpus.length - k)).map (fun i => (window corpus i k, succAt corpus i k))

/-- The transition dictionary built by markov_algorithm
(src/text_utilities.py lines 119-134): the sentinel entry
Tuple of k periods bound to the one-element filler list, then one
addTransition step per scanned index. -/
def build_chain (corpus : List Tok) (k : Nat) : List (List Tok × List Tok) :=
  (build_steps corpus k).foldl (fun m p => addTransition m p.1 p.2)
    [(List.replicate k terminator, [filler])]

/-- Python random.choice(l) with an injected random draw r: picks the
element at index r modulo the length; on an empty list the access fails
(IndexError), modelled as none. -/
def pyChoice {α : Type} (l : List α) (r : Nat) : Option α :=
  l.get? (r % l.length)

/-- The generation loop of markov_algorithm (src/text_utilities.py lines
142-157), with fuel = the number of remaining iterations, cur the current
key, out the output accumulated so far and ctr the random draw counter.
A missing key (Python KeyError) is recovered by drawing a uniformly random
existing key and sampling a successor from its list; the successor is then
appended to out and the key window slides by one. -/
def markov_loop (chain : List (List Tok × List Tok)) (rand : Nat → Nat) :
    Nat → List Tok → List Tok → Nat → Option (List Tok)
  | 0, _, out, _ => some out
  | fuel + 1, cur, out, ctr =>
    match alookup chain cur with
    | some succs =>
      match pyChoice succs (rand ctr) with
      | some w => markov_loop chain rand fuel ((cur ++ [w]).drop 1) (out ++ [w]) (ctr + 1)
      | none => none
    | none =>
      match pyChoice (chain.map Prod.fst) (rand ctr) with
      | some key =>
        match alookup chain key with
        | some succs =>
          match pyChoice succs (rand (ctr + 1)) with
          | some w => markov_loop chain rand fuel ((key ++ [w]).drop 1) (out ++ [w]) (ctr + 2)
          | none => none
        | none => none
      | none => none

/-- Splitting a character list on whitespace runs, discarding empty pieces:
Python str.split() with no arguments.  The accumulator holds the current
in-progress token in reverse order. -/
def splitWsAux : List Char → List Char → List Tok
  | [], acc => if acc = [] then [] else [acc.reverse]
  | c :: cs, acc =>
    if c.isWhitespace then
      (if acc = [] then splitWsAux cs [] else acc.reverse :: splitWsAux cs [])
    else
      splitWsAux cs (c :: acc)

/-- Python str.split() with no arguments. -/
def splitWs (s : List Char) : List Tok :=
  splitWsAux s []

/-- The whole of markov_algorithm (src/text_utilities.py lines 97-158):
build the transition dictionary, pick the start key (the split seed words
if supplied, else a uniformly random existing key), then run the
generation loop for output_words_length iterations starting from the start
key as both current key and initial output. -/
def markov_algorithm (corpus : List Tok) (output_words_length prefix_length : Nat)
    (seed_words : Option (List Char)) (rand : Nat → Nat) : Option (List Tok) :=
  let chain := build_chain corpus prefix_length
  match seed_words with
  | some s =>
    markov_loop chain rand output_words_length (splitWs s) (splitWs s) 0
  | none =>
    match pyChoice (chain.map Prod.fst) (rand 0) with
    | some start_seq => markov_loop chain rand output_words_length start_seq start_seq 1
    | none => none

/-- Replacement of every occurrence of the single character c by the
character list r: Python str.replace(c, r) for a one-character pattern. -/
def replaceChar (l : List Char) (c : Char) (r : List Char) : List Char :=
  l.flatMap (fun x => if x = c then r else [x])

/-- The character-level part of clean_up_corpus_string
(src/text_utilities.py lines 175-179): lowercase everything, replace each
of the seven punctuation characters by a space, then delete each of the
three quote and parenthesis characters. -/
def clean_chars (s : List Char) : List Char :=
  let lowered := s.map Char.toLower
  let spaced := [ '!', '.', ',', '@', '&', '?', '-' ].foldl
    (fun t c => replaceChar t c [' ']) lowered
  [ '\"', '(', ')' ].foldl (fun t c => replaceChar t c []) spaced

/-- The corpus normalizer clean_up_corpus_string (src/text_utilities.py
lines 160-181): character cleanup followed by whitespace splitting. -/
def clean_up_corpus_string (s : List Char) : List Tok :=
  splitWs (clean_chars s)

/-- The trailing tokens removed by the output sanitizer
(src/text_utilities.py line 90). -/
def trailing_set : List Tok := [ ['a', 'n', 'd'], ['i'], ['m', 'r'] ]

/-- The leading tokens removed by the output sanitizer
(src/text_utilities.py line 94). -/
def leading_set : List Tok := [ ['a', 'n', 'd'], ['h', 'i', 'm'] ]

/-- The output sanitizer clean_up_markov_output (src/text_utilities.py
lines 85-95).  It reads l[-1] (IndexError, hence none, on an empty list),
pops the last element when it is a disallowed trailing token, then reads
l[0] of the possibly shortened list (IndexError, hence none, when that
list is empty) and pops the first element when it is a disallowed leading
token. -/
def clean_up_markov_output (l : List Tok) : Option (List Tok) :=
  match l.getLast? with
  | none => none
  | some lastTok =>
    let l1 := if lastTok ∈ trailing_set then l.dropLast else l
    match l1.head? with
    | none => none
    | some firstTok => some (if firstTok ∈ leading_set then l1.drop 1 else l1)

/-- The sanitizer as the specification words it (spec section 4.4): drop
the last token iff it lies in the disallowed trailing set, then drop the
first token of the possibly shortened sequence iff it lies in the
disallowed leading set, each rule applying at most once, with totally
defined guarded end accesses. -/
def sanitize_spec (l : List Tok) : List Tok :=
  let l1 := if l.getLastD [] ∈ trailing_set then l.dropLast else l
  if l1.headD [] ∈ leading_set then l1.drop 1 else l1

/-- Reading the corpus file (return_corpus_text, src/text_utilities.py
lines 39-48): the file system is modelled by an optional file content,
none meaning the read raises; the except branch prints an error message
and returns the empty string. -/
def return_corpus_text (file_content : Option (List Char)) : List Char :=
  match file_content with
  | some s => s
  | none => []

/-- The pipeline generate_text (src/text_utilities.py lines 55-83): read
the corpus, normalize it, run the Markov generator, sanitize the produced
word list in place and return it.  An exception escaping the generator or
the sanitizer propagates (none). -/
def generate_text (file_content : Option (List Char)) (prefix_length output_words_length : Nat)
    (seed_words : Option (List Char)) (rand : Nat → Nat) : Option (List Tok) :=
  let corpus_as_string := return_corpus_text file_content
  let corpus := clean_up_corpus_string corpus_as_string
  match markov_algorithm corpus output_words_length prefix_length seed_words rand with
  | none => none
  | some output_word_list => clean_up_markov_output output_word_list

/-- Combining an existing binding with the successors appended by later
builder steps: the helper shape of the master characterization below. -/
def optAdd {β : Type} (o : Option (List β)) (add : List β) : Option (List β) :=
  match o with
  | some l => some (l ++ add)
  | none => match add with
    | [] => none
    | _ => some add

theorem alookup_map_update {α β : Type} [DecidableEq α]
    (m : List (α × List β)) (a s : α) (w : β) :
    alookup (m.map (fun p => if p.1 = a then (p.1, p.2 ++ [w]) else p)) s =
      if s = a then (alookup m s).map (fun l => l ++ [w]) else alookup m s := by
  induction m with
  | nil => by_cases hsa : s = a <;> simp [alookup, hsa]
  | cons p ps ih =>
    by_cases hps : p.1 = s
    · by_cases hpa : p.1 = a
      · have hsa : s = a := by rw [← hps, hpa]
        simp [alookup, hpa, hps, hsa]
      · have hsa : ¬ s = a := fun h => hpa (by rw [hps, h])
        simp [alookup, hpa, hps, hsa]
    · by_cases hpa : p.1 = a
      · have hsa : ¬ s = a := fun h => hps (by rw [hpa, ← h])
        have has : ¬ a = s := fun h => hsa h.symm
        simp [alookup, hpa, hps, hsa, has, ih]
      · simp [alookup, hpa, hps, ih]

theorem alookup_append_single {α β : Type} [DecidableEq α]
    (m : List (α × β)) (a s : α) (v : β) :
    alookup (m ++ [(a, v)]) s =
      match alookup m s with
      | some l => some l
      | none => if a = s then some v else none := by
  induction m with
  | nil => simp [alookup]
  | cons p ps ih =>
    by_cases hps : p.1 = s
    · simp [alookup, hps]
    · simp [alookup, hps, ih]

theorem alookup_addTransition {α β : Type} [DecidableEq α]
    (m : List (α × List β)) (a s : α) (w : β) :
    alookup (addTransition m a w) s =
      if s = a then some (((alookup m a).getD []) ++ [w]) else alookup m s := by
  unfold addTransition
  by_cases hm : (alookup m a).isSome
  · rw [if_pos hm, alookup_map_update]
    by_cases hsa : s = a
    · subst hsa
      obtain ⟨l, hl⟩ := Option.isSome_iff_exists.mp hm
      rw [hl]
      simp
    · simp [hsa]
  · rw [if_neg hm, alookup_append_single]
    have hnone : alookup m a = none := Option.not_isSome_iff_eq_none.mp hm
    by_cases hsa : s = a
    · subst hsa
      rw [hnone]
      simp
    · have has : ¬ a = s := fun h => hsa h.symm
      cases halm : alookup m s <;> simp [has, hsa]

theorem alookup_foldl_addTransition {α β : Type} [DecidableEq α]
    (steps : List (α × β)) (m : List (α × List β)) (s : α) :
    alookup (steps.foldl (fun acc p => addTransition acc p.1 p.2) m) s =
      optAdd (alookup m s) ((steps.filter (fun p => p.1 = s)).map Prod.snd) := by
  induction steps generalizing m with
  | nil =>
    cases h : alookup m s <;> simp [optAdd, h]
  | cons p ps ih =>
    rw [List.foldl_cons, ih, alookup_addTransition]
    by_cases hps : p.1 = s
    · have hsp : s = p.1 := hps.symm
      rw [if_pos hsp, List.filter_cons_of_pos (by simpa using hps), List.map_cons]
      subst hsp
      cases halm : alookup m p.1 <;> simp [optAdd]
    · have hsp : ¬ s = p.1 := fun h => hps h.symm
      rw [if_neg hsp, List.filter_cons_of_neg (by simpa using hps)]

/-- Master characterization of the transition dictionary: the bindings of
build_chain are the sentinel seed plus, per key, the successors of all
scanned windows equal to that key, in scan order. -/
theorem alookup_build_chain (corpus : List Tok) (k : Nat) (s : List Tok) :
    alookup (build_chain corpus k) s =
      optAdd (if List.replicate k terminator = s then some [filler] else none)
        (((build_steps corpus k).filter (fun p => p.1 = s)).map Prod.snd) := by
  rw [build_chain, alookup_foldl_addTransition]
  rfl

/-- The successors appended for key s are exactly the successor tokens of
the scanned windows equal to s, in scan order. -/
theorem build_steps_filter_eq (corpus : List Tok) (k : Nat) (s : List Tok) :
    ((build_steps corpus k).filter (fun p => p.1 = s)).map Prod.snd =
      ((List.range (corpus.length - k)).filter (fun i => window corpus i k = s)).map
        (fun i => succAt corpus i k) := by
  rw [build_steps, List.filter_map, List.map_map]
  rfl

theorem window_mem_subset {corpus : List Tok} {i k : Nat} {x : Tok}
    (hx : x ∈ window corpus i k) : x ∈ corpus :=
  List.mem_of_mem_drop (List.mem_of_mem_take hx)

theorem window_length {corpus : List Tok} {i k : Nat} (h : i < corpus.length - k) :
    (window corpus i k).length = k := by
  rw [window, List.length_take, List.length_drop]
  omega

theorem succAt_eq_getD {corpus : List Tok} {i k : Nat} (h : i < corpus.length - k) :
    succAt corpus i k = corpus.getD (i + k) terminator := by
  rw [succAt, if_pos (by omega)]

theorem succAt_mem {corpus : List Tok} {i k : Nat} (h : i < corpus.length - k) :
    succAt corpus i k ∈ corpus := by
  rw [succAt_eq_getD h, List.getD_eq_getElem?_getD, List.getElem?_eq_getElem (by omega)]
  exact List.getElem_mem (by omega)

/-- Every successor list bound in the transition dictionary is non-empty. -/
theorem build_chain_values_ne_nil {corpus : List Tok} {k : Nat} {s : List Tok}
    {l : List Tok} (h : alookup (build_chain corpus k) s = some l) : l ≠ [] := by
  rw [alookup_build_chain] at h
  by_cases hs : List.replicate k terminator = s
  · rw [if_pos hs] at h
    simp only [optAdd] at h
    cases h
    simp
  · rw [if_neg hs] at h
    simp only [optAdd] at h
    revert h
    cases hadd : ((build_steps corpus k).filter (fun p => p.1 = s)).map Prod.snd with
    | nil => intro h; cases h
    | cons x xs => intro h; cases h; simp

/-- Once the terminator occurs in no corpus token, the sentinel key keeps
exactly its seeded one-filler successor list. -/
theorem sentinel_binding {corpus : List Tok} {k : Nat} (hk : 1 ≤ k)
    (hterm : terminator ∉ corpus) :
    alookup (build_chain corpus k) (List.replicate k terminator) = some [filler] := by
  rw [alookup_build_chain, if_pos rfl, build_steps_filter_eq]
  have hfilter :
      (List.range (corpus.length - k)).filter
        (fun i => window corpus i k = List.replicate k terminator) = [] := by
    rw [List.filter_eq_nil_iff]
    intro i hi
    simp only [decide_eq_true_eq]
    intro hwin
    apply hterm
    refine @window_mem_subset corpus i k terminator ?_
    rw [hwin]
    exact List.mem_replicate.mpr ⟨by omega, rfl⟩
  rw [hfilter]
  rfl

/-- A corpus with fewer tokens than the order is scanned over no windows at
all: the dictionary is exactly the seeded sentinel binding. -/
theorem build_chain_degenerate {corpus : List Tok} {k : Nat}
    (h : corpus.length ≤ k) :
    build_chain corpus k = [(List.replicate k terminator, [filler])] := by
  rw [build_chain, build_steps]
  have : corpus.length - k = 0 := by omega
  rw [this]
  rfl

theorem mem_keys_addTransition {α β : Type} [DecidableEq α]
    {m : List (α × List β)} {a s : α} {w : β}
    (h : s ∈ (addTransition m a w).map Prod.fst) : s ∈ m.map Prod.fst ∨ s = a := by
  revert h
  unfold addTransition
  by_cases hm : (alookup m a).isSome
  · rw [if_pos hm, List.map_map]
    intro h
    left
    obtain ⟨p, hp, hfst⟩ := List.mem_map.mp h
    refine List.mem_map.mpr ⟨p, hp, ?_⟩
    rw [← hfst]
    by_cases hpa : p.1 = a <;> simp [Function.comp, hpa]
  · rw [if_neg hm, List.map_append]
    intro h
    rcases List.mem_append.mp h with h1 | h2
    · exact Or.inl h1
    · right
      simpa using h2

theorem mem_keys_foldl {α β : Type} [DecidableEq α]
    (steps : List (α × β)) (m : List (α × List β)) (s : α)
    (h : s ∈ (steps.foldl (fun acc p => addTransition acc p.1 p.2) m).map Prod.fst) :
    s ∈ m.map Prod.fst ∨ s ∈ steps.map Prod.fst := by
  induction steps generalizing m with
  | nil => exact Or.inl h
  | cons p ps ih =>
    rw [List.foldl_cons] at h
    rcases ih _ h with h1 | h2
    · rcases mem_keys_addTransition h1 with h3 | h4
      · exact Or.inl h3
      · exact Or.inr (by simp [h4])
    · exact Or.inr (by simp [h2])

/-- Every key of the transition dictionary is the sentinel or a scanned
window, hence has exactly k tokens. -/
theorem build_chain_keys_length {corpus : List Tok} {k : Nat} {s : List Tok}
    (h : s ∈ (build_chain corpus k).map Prod.fst) : s.length = k := by
  rcases mem_keys_foldl _ _ _ h with h1 | h2
  · have : s = List.replicate k terminator := by simpa [alookup] using h1
    rw [this, List.length_replicate]
  · rw [build_steps, List.map_map] at h2
    obtain ⟨i, hi, heq⟩ := List.mem_map.mp h2
    rw [List.mem_range] at hi
    rw [← heq]
    exact window_length hi

theorem addTransition_ne_nil {α β : Type} [DecidableEq α]
    {m : List (α × List β)} {a : α} {w : β} (h : m ≠ []) : addTransition m a w ≠ [] := by
  unfold addTransition
  by_cases hm : (alookup m a).isSome
  · rw [if_pos hm]
    simpa using h
  · rw [if_neg hm]
    simp

theorem foldl_addTransition_ne_nil {α β : Type} [DecidableEq α]
    (steps : List (α × β)) (m : List (α × List β)) (h : m ≠ []) :
    steps.foldl (fun acc p => addTransition acc p.1 p.2) m ≠ [] := by
  induction steps generalizing m with
  | nil => exact h
  | cons p ps ih =>
    rw [List.foldl_cons]
    exact ih _ (addTransition_ne_nil h)

theorem build_chain_ne_nil (corpus : List Tok) (k : Nat) : build_chain corpus k ≠ [] :=
  foldl_addTransition_ne_nil _ _ (by simp)

theorem alookup_isSome_of_mem_keys {α β : Type} [DecidableEq α]
    {m : List (α × β)} {a : α} (h : a ∈ m.map Prod.fst) : (alookup m a).isSome := by
  induction m with
  | nil => simp at h
  | cons p ps ih =>
    by_cases hpa : p.1 = a
    · simp [alookup, hpa]
    · rw [List.map_cons, List.mem_cons] at h
      rcases h with h1 | h2
      · exact absurd h1.symm hpa
      · simpa [alookup, hpa] using ih h2

theorem pyChoice_some {α : Type} {l : List α} (h : l ≠ []) (r : Nat) :
    ∃ x, pyChoice l r = some x ∧ x ∈ l := by
  have hlen : 0 < l.length := List.length_pos.mpr h
  have hmod : r % l.length < l.length := Nat.mod_lt _ hlen
  refine ⟨l.get ⟨r % l.length, hmod⟩, ?_, List.get_mem l (r % l.length) hmod⟩
  rw [pyChoice, List.get?_eq_get hmod]

/-- The generation loop never fails and always appends exactly its fuel
worth of tokens, whatever the current key and however often the missing
key recovery fires, provided the dictionary is non-empty with non-empty
successor lists. -/
theorem markov_loop_total (chain : List (List Tok × List Tok)) (rand : Nat → Nat)
    (hne : chain ≠ [])
    (hvals : ∀ s l, alookup chain s = some l → l ≠ []) :
    ∀ (fuel : Nat) (cur out : List Tok) (ctr : Nat),
      ∃ l, markov_loop chain rand fuel cur out ctr = some l ∧
        l.length = out.length + fuel := by
  intro fuel
  induction fuel with
  | zero => intro cur out ctr; exact ⟨out, rfl, rfl⟩
  | succ n ih =>
    intro cur out ctr
    rw [markov_loop]
    cases hcur : alookup chain cur with
    | some succs =>
      obtain ⟨w, hw, hwmem⟩ := pyChoice_some (hvals _ _ hcur) (rand ctr)
      obtain ⟨l, hl, hlen⟩ := ih ((cur ++ [w]).drop 1) (out ++ [w]) (ctr + 1)
      refine ⟨l, ?_, ?_⟩
      · simpa only [hw] using hl
      · rw [hlen, List.length_append]
        simp only [List.length_singleton]
        omega
    | none =>
      have hkeys : chain.map Prod.fst ≠ [] := by
        intro hcon
        exact hne (List.map_eq_nil_iff.mp hcon)
      obtain ⟨key, hkey, hkeymem⟩ := pyChoice_some hkeys (rand ctr)
      have hksome := alookup_isSome_of_mem_keys hkeymem
      obtain ⟨succs, hsuccs⟩ := Option.isSome_iff_exists.mp hksome
      obtain ⟨w, hw, hwmem⟩ := pyChoice_some (hvals _ _ hsuccs) (rand (ctr + 1))
      obtain ⟨l, hl, hlen⟩ := ih ((key ++ [w]).drop 1) (out ++ [w]) (ctr + 2)
      refine ⟨l, ?_, ?_⟩
      · simpa only [hkey, hsuccs, hw] using hl
      · rw [hlen, List.length_append]
        simp only [List.length_singleton]
        omega

/-- The sampler (markov_algorithm) always succeeds, and its output has the
length of the start sequence plus the requested word count: the split seed
length when seed words are supplied, else the order k. -/
theorem markov_algorithm_length (corpus : List Tok) (n k : Nat)
    (seed_words : Option (List Char)) (rand : Nat → Nat) :
    ∃ l, markov_algorithm corpus n k seed_words rand = some l ∧
      l.length = (match seed_words with
        | some s => (splitWs s).length
        | none => k) + n := by
  have hne := build_chain_ne_nil corpus k
  have hvals : ∀ s l, alookup (build_chain corpus k) s = some l → l ≠ [] :=
    fun s l h => build_chain_values_ne_nil h
  cases seed_words with
  | some s =>
    obtain ⟨l, hl, hlen⟩ := markov_loop_total (build_chain corpus k) rand hne hvals
      n (splitWs s) (splitWs s) 0
    exact ⟨l, hl, hlen⟩
  | none =>
    have hkeys : (build_chain corpus k).map Prod.fst ≠ [] := by
      intro hcon
      exact hne (List.map_eq_nil_iff.mp hcon)
    obtain ⟨start, hstart, hstartmem⟩ := pyChoice_some hkeys (rand 0)
    obtain ⟨l, hl, hlen⟩ := markov_loop_total (build_chain corpus k) rand hne hvals
      n start start 1
    refine ⟨l, ?_, ?_⟩
    · rw [markov_algorithm]
      rw [hstart]
      exact hl
    · rw [hlen, build_chain_keys_length hstartmem]

theorem char_isUpper_toLower (c : Char) : (Char.toLower c).isUpper = false := by
  rw [Char.toLower]
  by_cases h : c.toNat ≥ 65 ∧ c.toNat ≤ 90
  · rw [if_pos h]
    have hvalid : Nat.isValidChar (c.toNat + 32) := Or.inl (by omega)
    have ht : (Char.ofNat (c.toNat + 32)).toNat = c.toNat + 32 := by
      rw [Char.ofNat, dif_pos hvalid]
      rfl
    simp only [Char.isUpper, ge_iff_le, Bool.and_eq_false_iff, decide_eq_false_iff_not,
      UInt32.le_def, BitVec.le_def]
    right
    have hb : (Char.ofNat (c.toNat + 32)).val.toBitVec.toNat = c.toNat + 32 := ht
    rw [hb]
    show ¬ (c.toNat + 32 ≤ 90)
    omega
  · rw [if_neg h]
    simp only [Char.isUpper, ge_iff_le, Bool.and_eq_false_iff, decide_eq_false_iff_not,
      UInt32.le_def, BitVec.le_def]
    have hb : c.val.toBitVec.toNat = c.toNat := rfl
    by_cases h65 : 65 ≤ c.toNat
    · right
      show ¬ (c.val.toBitVec.toNat ≤ 90)
      omega
    · left
      show ¬ (65 ≤ c.val.toBitVec.toNat)
      omega

/-- Tokens produced by whitespace splitting are non-empty and contain no
whitespace character, given a whitespace-free accumulator. -/
theorem splitWsAux_wellformed :
    ∀ (s acc : List Char), (∀ c ∈ acc, c.isWhitespace = false) →
      ∀ t ∈ splitWsAux s acc, t ≠ [] ∧ ∀ c ∈ t, c.isWhitespace = false := by
  intro s
  induction s with
  | nil =>
    intro acc hacc t ht
    rw [splitWsAux] at ht
    by_cases hempty : acc = []
    · rw [if_pos hempty] at ht
      simp at ht
    · rw [if_neg hempty] at ht
      rcases List.mem_singleton.mp ht with rfl
      refine ⟨by simpa using hempty, ?_⟩
      intro c hc
      exact hacc c (List.mem_reverse.mp hc)
  | cons x xs ih =>
    intro acc hacc t ht
    rw [splitWsAux] at ht
    by_cases hws : x.isWhitespace
    · rw [if_pos hws] at ht
      by_cases hempty : acc = []
      · rw [if_pos hempty] at ht
        exact ih [] (by simp) t ht
      · rw [if_neg hempty] at ht
        rcases List.mem_cons.mp ht with rfl | hrest
        · refine ⟨by simpa using hempty, ?_⟩
          intro c hc
          exact hacc c (List.mem_reverse.mp hc)
        · exact ih [] (by simp) t hrest
    · rw [if_neg hws] at ht
      refine ih (x :: acc) ?_ t ht
      intro c hc
      rcases List.mem_cons.mp hc with rfl | hmem
      · simpa using hws
      · exact hacc c hmem

/-- Every character of a produced token comes from the split input or from
the accumulator. -/
theorem splitWsAux_chars_subset :
    ∀ (s acc : List Char) (t : Tok), t ∈ splitWsAux s acc →
      ∀ c ∈ t, c ∈ s ∨ c ∈ acc := by
  intro s
  induction s with
  | nil =>
    intro acc t ht c hc
    rw [splitWsAux] at ht
    by_cases hempty : acc = []
    · rw [if_pos hempty] at ht
      simp at ht
    · rw [if_neg hempty] at ht
      rcases List.mem_singleton.mp ht with rfl
      exact Or.inr (List.mem_reverse.mp hc)
  | cons x xs ih =>
    intro acc t ht c hc
    rw [splitWsAux] at ht
    by_cases hws : x.isWhitespace
    · rw [if_pos hws] at ht
      by_cases hempty : acc = []
      · rw [if_pos hempty] at ht
        rcases ih [] t ht c hc with h1 | h2
        · exact Or.inl (List.mem_cons_of_mem x h1)
        · simp at h2
      · rw [if_neg hempty] at ht
        rcases List.mem_cons.mp ht with rfl | hrest
        · exact Or.inr (List.mem_reverse.mp hc)
        · rcases ih [] t hrest c hc with h1 | h2
          · exact Or.inl (List.mem_cons_of_mem x h1)
          · simp at h2
    · rw [if_neg hws] at ht
      rcases ih (x :: acc) t ht c hc with h1 | h2
      · exact Or.inl (List.mem_cons_of_mem x h1)
      · rcases List.mem_cons.mp h2 with rfl | hmem
        · exact Or.inl (List.mem_cons_self c xs)
        · exact Or.inr hmem

theorem mem_replaceChar {l : List Char} {a : Char} {r : List Char} {x : Char}
    (h : x ∈ replaceChar l a r) : x ∈ r ∨ x ∈ l := by
  rw [replaceChar] at h
  obtain ⟨y, hy, hx⟩ := List.mem_flatMap.mp h
  by_cases hya : y = a
  · rw [if_pos hya] at hx
    exact Or.inl hx
  · rw [if_neg hya] at hx
    rcases List.mem_singleton.mp hx with rfl
    exact Or.inr hy

theorem not_mem_replaceChar {l : List Char} {a : Char} {r : List Char} {x : Char}
    (hr : x ∉ r) (hl : x ∉ l) : x ∉ replaceChar l a r := by
  intro h
  rcases mem_replaceChar h with h1 | h2
  · exact hr h1
  · exact hl h2

theorem not_mem_replaceChar_self {l : List Char} {a : Char} {r : List Char}
    (hr : a ∉ r) : a ∉ replaceChar l a r := by
  intro h
  rw [replaceChar] at h
  obtain ⟨y, hy, hx⟩ := List.mem_flatMap.mp h
  by_cases hya : y = a
  · rw [if_pos hya] at hx
    exact hr hx
  · rw [if_neg hya] at hx
    exact hya (List.mem_singleton.mp hx).symm

/-- The normalizer never leaves a period in the cleaned character stream:
the second replacement pass turns every period into a space and no later
pass reintroduces one. -/
theorem dot_not_mem_clean_chars (s : List Char) : ('.' : Char) ∉ clean_chars s := by
  rw [clean_chars]
  simp only [List.foldl_cons, List.foldl_nil]
  apply not_mem_replaceChar (by decide)
  apply not_mem_replaceChar (by decide)
  apply not_mem_replaceChar (by decide)
  apply not_mem_replaceChar (by decide)
  apply not_mem_replaceChar (by decide)
  apply not_mem_replaceChar (by decide)
  apply not_mem_replaceChar (by decide)
  apply not_mem_replaceChar (by decide)
  exact not_mem_replaceChar_self (by decide)

/-- Characters surviving the character cleanup are spaces or lowercased
input characters. -/
theorem mem_clean_chars {s : List Char} {c : Char} (h : c ∈ clean_chars s) :
    c = ' ' ∨ ∃ x, c = Char.toLower x := by
  rw [clean_chars] at h
  simp only [List.foldl_cons, List.foldl_nil] at h
  have hspace : (c ∈ [(' ' : Char)]) ∨ c ∈ List.map Char.toLower s →
      c = ' ' ∨ ∃ x, c = Char.toLower x := by
    intro hor
    rcases hor with h1 | h2
    · exact Or.inl (List.mem_singleton.mp h1)
    · obtain ⟨x, _, hx⟩ := List.mem_map.mp h2
      exact Or.inr ⟨x, hx.symm⟩
  apply hspace
  rcases mem_replaceChar h with h1 | h2
  · simp at h1
  rcases mem_replaceChar h2 with h1 | h3
  · simp at h1
  rcases mem_replaceChar h3 with h1 | h4
  · simp at h1
  rcases mem_replaceChar h4 with h1 | h5
  · exact Or.inl h1
  rcases mem_replaceChar h5 with h1 | h6
  · exact Or.inl h1
  rcases mem_replaceChar h6 with h1 | h7
  · exact Or.inl h1
  rcases mem_replaceChar h7 with h1 | h8
  · exact Or.inl h1
  rcases mem_replaceChar h8 with h1 | h9
  · exact Or.inl h1
  rcases mem_replaceChar h9 with h1 | h10
  · exact Or.inl h1
  rcases mem_replaceChar h10 with h1 | h11
  · exact Or.inl h1
  · exact Or.inr h11

/-- No token of the cleaned corpus is the terminator token. -/
theorem terminator_not_mem_clean (s : List Char) :
    terminator ∉ clean_up_corpus_string s := by
  intro h
  rw [clean_up_corpus_string, splitWs] at h
  have hchar := splitWsAux_chars_subset (clean_chars s) [] terminator h '.'
    (by rw [terminator]; exact List.mem_singleton_self _)
  rcases hchar with h1 | h2
  · exact dot_not_mem_clean_chars s h1
  · simp at h2

theorem pyChoice_singleton {α : Type} (x : α) (r : Nat) : pyChoice [x] r = some x := by
  simp [pyChoice, Nat.mod_one]

/-- Walking the degenerate sentinel-only dictionary appends only fillers:
the first step from the sentinel key samples the filler, every later
current key is missing and the recovery path re-seeds at the sentinel. -/
theorem markov_loop_sentinel (k : Nat) (rand : Nat → Nat) :
    ∀ (fuel : Nat) (cur out : List Tok) (ctr : Nat),
      markov_loop [(List.replicate k terminator, [filler])] rand fuel cur out ctr =
        some (out ++ List.replicate fuel filler) := by
  intro fuel
  induction fuel with
  | zero => intro cur out ctr; simp [markov_loop]
  | succ n ih =>
    intro cur out ctr
    rw [markov_loop]
    by_cases hcur : List.replicate k terminator = cur
    · have hlook : alookup [(List.replicate k terminator, [filler])] cur = some [filler] := by
        simp [alookup, hcur]
      simp only [hlook, pyChoice_singleton, ih, List.replicate_succ, List.append_assoc,
        List.singleton_append]
    · have hlook : alookup [(List.replicate k terminator, [filler])] cur = none := by
        simp [alookup, hcur]
      have hkeys : ([(List.replicate k terminator, [filler])].map Prod.fst) =
          [List.replicate k terminator] := rfl
      have hlook2 : alookup [(List.replicate k terminator, [filler])]
          (List.replicate k terminator) = some [filler] := by
        simp [alookup]
      simp only [hlook, hkeys, pyChoice_singleton, hlook2, ih, List.replicate_succ,
        List.append_assoc, List.singleton_append]

/-- On a non-degenerate input (at least two tokens) the sanitizer cannot
raise and computes exactly the two-rule trim the specification describes. -/
theorem sanitizer_eq_spec {l : List Tok} (h : 2 ≤ l.length) :
    clean_up_markov_output l = some (sanitize_spec l) := by
  have hne : l ≠ [] := by
    intro hcon
    rw [hcon] at h
    simp at h
  rw [clean_up_markov_output, sanitize_spec]
  cases hlast : l.getLast? with
  | none => exact absurd (List.getLast?_eq_none_iff.mp hlast) hne
  | some lastTok =>
    have hlastD : l.getLastD [] = lastTok := by
      rw [List.getLastD_eq_getLast?, hlast]
      rfl
    rw [hlastD]
    have hl1ne : (if lastTok ∈ trailing_set then l.dropLast else l) ≠ [] := by
      by_cases hmem : lastTok ∈ trailing_set
      · rw [if_pos hmem]
        intro hcon
        have hlen := congrArg List.length hcon
        rw [List.length_dropLast] at hlen
        simp only [List.length_nil] at hlen
        omega
      · rw [if_neg hmem]
        exact hne
    cases hhead : (if lastTok ∈ trailing_set then l.dropLast else l).head? with
    | none => exact absurd (List.head?_eq_none_iff.mp hhead) hl1ne
    | some firstTok =>
      have hheadD : (if lastTok ∈ trailing_set then l.dropLast else l).headD [] = firstTok := by
        rw [List.headD_eq_head?, hhead]
        rfl
      rw [hheadD]
      simp only [hhead]

theorem add_mem_corpus {corpus : List Tok} {k : Nat} {s : List Tok} {w : Tok}
    (h : w ∈ ((build_steps corpus k).filter (fun p => p.1 = s)).map Prod.snd) :
    w ∈ corpus := by
  rw [build_steps_filter_eq] at h
  obtain ⟨i, hi, hw⟩ := List.mem_map.mp h
  have hir := List.mem_range.mp (List.mem_filter.mp hi).1
  rw [← hw]
  exact succAt_mem hir

/-- Every successor stored in the dictionary is the seeded filler of the
sentinel key or a token of the scanned corpus. -/
theorem build_chain_succ_mem {corpus : List Tok} {k : Nat} {s l : List Tok}
    (h : alookup (build_chain corpus k) s = some l) :
    ∀ w ∈ l, (s = List.replicate k terminator ∧ w = filler) ∨ w ∈ corpus := by
  rw [alookup_build_chain] at h
  by_cases hs : List.replicate k terminator = s
  · rw [if_pos hs] at h
    simp only [optAdd] at h
    cases h
    intro w hw
    rcases List.mem_append.mp hw with h1 | h2
    · exact Or.inl ⟨hs.symm, List.mem_singleton.mp h1⟩
    · exact Or.inr (add_mem_corpus h2)
  · rw [if_neg hs] at h
    simp only [optAdd] at h
    revert h
    cases hadd : ((build_steps corpus k).filter (fun p => p.1 = s)).map Prod.snd with
    | nil => intro h; cases h
    | cons x xs =>
      intro h
      cases h
      intro w hw
      refine Or.inr (@add_mem_corpus corpus k s w ?_)
      rw [hadd]
      exact hw

/-- The sanitizer leaves the degenerate sentinel walk output unchanged:
its last token is a period or a space and its first token is a period,
none of which is a disallowed end token. -/
theorem sentinel_output_sanitize (k n : Nat) (hk : 1 ≤ k) :
    clean_up_markov_output (List.replicate k terminator ++ List.replicate n filler) =
      some (List.replicate k terminator ++ List.replicate n filler) := by
  obtain ⟨j, rfl⟩ : ∃ j, k = j + 1 := ⟨k - 1, by omega⟩
  rw [clean_up_markov_output]
  have hlast : (List.replicate (j + 1) terminator ++ List.replicate n filler).getLast? =
      some (if n = 0 then terminator else filler) := by
    cases n with
    | zero =>
      rw [List.replicate_zero, List.append_nil, List.replicate_succ', List.getLast?_concat]
      rfl
    | succ m =>
      rw [List.replicate_succ' m filler, ← List.append_assoc, List.getLast?_concat]
      rfl
  have hhead : (List.replicate (j + 1) terminator ++ List.replicate n filler).head? =
      some terminator := by
    rw [List.replicate_succ, List.cons_append, List.head?_cons]
  rw [hlast]
  have hnotrail : ((if n = 0 then terminator else filler) ∈ trailing_set) = False := by
    cases n with
    | zero => simp only [if_pos rfl]; decide
    | succ m => simp only [Nat.succ_ne_zero, if_neg (Nat.succ_ne_zero m)]; decide
  simp only [hnotrail, if_false, hhead]
  rw [if_neg (by decide : terminator ∉ leading_set)]

/-- Running the whole pipeline on an unreadable file: the corpus collapses
to the empty token list, the dictionary to the sentinel entry, and the walk
produces k periods followed by n fillers, which the sanitizer keeps. -/
theorem generate_text_unreadable (k n : Nat) (rand : Nat → Nat) (hk : 1 ≤ k) :
    generate_text none k n none rand =
      some (List.replicate k terminator ++ List.replicate n filler) := by
  have hchain : build_chain [] k = [(List.replicate k terminator, [filler])] :=
    build_chain_degenerate (by simp)
  have hout : markov_algorithm [] n k none rand =
      some (List.replicate k terminator ++ List.replicate n filler) := by
    rw [markov_algorithm]
    simp only [hchain, List.map_cons, List.map_nil, pyChoice_singleton,
      markov_loop_sentinel]
  have hcorpus : clean_up_corpus_string (return_corpus_text none) = [] := rfl
  rw [generate_text, hcorpus, hout]
  exact sentinel_output_sanitize k n hk

example : build_chain [ ['a'], ['b'] ] 1 =
    [(List.replicate 1 terminator, [filler]), ([ ['a'] ], [ ['b'] ])] := by decide

example : markov_algorithm [ ['a'], ['b'] ] 1 1 (some ['x']) (fun _ => 0) =
    some [ ['x'], [' '] ] := by decide

example : clean_up_corpus_string "Hi, (there)!".toList =
    [ ['h', 'i'], ['t', 'h', 'e', 'r', 'e'] ] := by decide


/-- Claim C1, counterexample: the builder loop is range(len(corpus) - k),
so the trailing window is never scanned.  For the corpus [a, b] with k = 1
the claim asserts a key (b) whose successor list is the singleton
terminator; the dictionary actually built has no key (b) at all. -/
theorem builder_trailing_key_absent :
    alookup (build_chain [ ['a'], ['b'] ] 1) [ ['b'] ] = none := by decide

/-- Claim C1 (amended): the builder scans every index i from 0 to
len(corpus) - k - 1 inclusive; the successor corpus[i + k] always exists,
so the terminator branch never fires.  Consequently every non-sentinel key
of the model is a contiguous k-token window of the corpus starting before
index len(corpus) - k, and its successor list is exactly, in scan order,
the tokens immediately following those occurrences; a trailing occurrence
contributes nothing. -/
theorem builder_model_characterization (corpus : List Tok) (k : Nat) (s l : List Tok)
    (hs : s ≠ List.replicate k terminator)
    (h : alookup (build_chain corpus k) s = some l) :
    (∃ i, i < corpus.length - k ∧ window corpus i k = s) ∧
      l = ((List.range (corpus.length - k)).filter
        (fun i => window corpus i k = s)).map
        (fun i => corpus.getD (i + k) terminator) := by
  rw [alookup_build_chain, if_neg (fun hcon => hs hcon.symm), build_steps_filter_eq] at h
  have hmapeq :
      ((List.range (corpus.length - k)).filter (fun i => window corpus i k = s)).map
        (fun i => succAt corpus i k) =
      ((List.range (corpus.length - k)).filter (fun i => window corpus i k = s)).map
        (fun i => corpus.getD (i + k) terminator) := by
    apply List.map_congr_left
    intro i hi
    have hir := List.mem_range.mp (List.mem_filter.mp hi).1
    exact succAt_eq_getD hir
  revert h
  cases hflc : ((List.range (corpus.length - k)).filter
      (fun i => window corpus i k = s)).map (fun i => succAt corpus i k) with
  | nil => intro h; simp [optAdd] at h
  | cons x xs =>
    intro h
    simp only [optAdd] at h
    cases h
    constructor
    · have hflne : (List.range (corpus.length - k)).filter
          (fun i => window corpus i k = s) ≠ [] := by
        intro hcon
        rw [hcon] at hflc
        simp at hflc
      obtain ⟨j, hj⟩ := List.exists_mem_of_ne_nil _ hflne
      have hj2 := List.mem_filter.mp hj
      exact ⟨j, List.mem_range.mp hj2.1, by simpa using hj2.2⟩
    · rw [← hflc, hmapeq]

/-- Claim C1 (amended), witness: for the corpus [a, b, a, c] with k = 1 the
key (a) occurs before the final position at indices 0 and 2, and its
successor list is exactly [b, c]. -/
theorem builder_model_characterization_witness :
    [ ['b'], ['c'] ] =
      ((List.range (List.length [ ['a'], ['b'], ['a'], ['c'] ] - 1)).filter
        (fun i => window [ ['a'], ['b'], ['a'], ['c'] ] i 1 = [ ['a'] ])).map
        (fun i => List.getD [ ['a'], ['b'], ['a'], ['c'] ] (i + 1) terminator) :=
  (builder_model_characterization [ ['a'], ['b'], ['a'], ['c'] ] 1 [ ['a'] ]
    [ ['b'], ['c'] ] (by decide) (by decide)).2

/-- Claim C2: when the current key (here a caller-supplied seed) is not a
key of the model, the sampler does not fail: the recovery branch draws a
uniformly random existing key and a successor from its list (the none
branch of markov_loop), and generation still returns the full output of
len(split seed) + n tokens. -/
theorem sampler_missing_key_recovery (corpus : List Tok) (k n : Nat) (s : List Char)
    (rand : Nat → Nat)
    (hmiss : alookup (build_chain corpus k) (splitWs s) = none) :
    ∃ l, markov_algorithm corpus n k (some s) rand = some l ∧
      l.length = (splitWs s).length + n :=
  markov_algorithm_length corpus n k (some s) rand

/-- Claim C2, witness: the seed x is absent from the model of the corpus
[a, b] with k = 1, and sampling one word still yields two output tokens. -/
theorem sampler_missing_key_recovery_witness :
    ∃ l, markov_algorithm [ ['a'], ['b'] ] 1 1 (some ['x']) (fun _ => 0) = some l ∧
      l.length = (splitWs ['x']).length + 1 :=
  sampler_missing_key_recovery [ ['a'], ['b'] ] 1 1 ['x'] (fun _ => 0) (by decide)

/-- Claim C3: the sampler always succeeds and returns exactly
len(start sequence) + n tokens: the split seed length when seed words are
given, else the order k; there is no early stop on the terminator, which
is appended like any other token. -/
theorem sampler_output_length (corpus : List Tok) (k n : Nat)
    (seed_words : Option (List Char)) (rand : Nat → Nat) :
    ∃ l, markov_algorithm corpus n k seed_words rand = some l ∧
      l.length = (match seed_words with
        | some s => (splitWs s).length
        | none => k) + n :=
  markov_algorithm_length corpus n k seed_words rand

/-- Claim C4 (code bug): the sanitizer reads l[-1] unguarded and, after
popping a disallowed trailing token, reads l[0] unguarded; on the single
token "and" the first pop empties the list and the l[0] read raises
IndexError (modelled as none), and on the empty list already the l[-1]
read raises.  The claimed guards do not exist in the code. -/
theorem sanitizer_singleton_and_raises :
    clean_up_markov_output [ ['a', 'n', 'd'] ] = none ∧
      clean_up_markov_output [] = none := by
  constructor
  · decide
  · decide

/-- Claim C5: for every cleaned corpus (no token is the terminator) and
order k >= 1, the model contains the sentinel key of k terminators bound
to the single filler successor, and when the corpus has fewer than k
tokens no window is scanned and the sentinel entry is the only binding. -/
theorem builder_sentinel_invariant (corpus : List Tok) (k : Nat) (hk : 1 ≤ k)
    (hterm : terminator ∉ corpus) :
    alookup (build_chain corpus k) (List.replicate k terminator) = some [filler] ∧
      (corpus.length < k →
        build_chain corpus k = [(List.replicate k terminator, [filler])]) :=
  ⟨sentinel_binding hk hterm, fun h => build_chain_degenerate (by omega)⟩

/-- Claim C5, witness: instantiated at the empty corpus with k = 1. -/
theorem builder_sentinel_invariant_witness :
    alookup (build_chain [] 1) (List.replicate 1 terminator) = some [filler] ∧
      build_chain [] 1 = [(List.replicate 1 terminator, [filler])] :=
  ⟨(builder_sentinel_invariant [] 1 (by decide) (by decide)).1,
   (builder_sentinel_invariant [] 1 (by decide) (by decide)).2 (by decide)⟩

/-- Claim C6: every key present in the model built by the builder is bound
to a non-empty successor list: the sentinel is seeded with the filler, and
any other binding is created together with its first successor. -/
theorem builder_successor_lists_nonempty (corpus : List Tok) (k : Nat) (s l : List Tok)
    (h : alookup (build_chain corpus k) s = some l) : l ≠ [] :=
  build_chain_values_ne_nil h

/-- Claim C6, witness: the key (a) of the two-token corpus [a, b] with
k = 1 is bound to the non-empty list [b]. -/
theorem builder_successor_lists_nonempty_witness :
    alookup (build_chain [ ['a'], ['b'] ] 1) [ ['a'] ] = some [ ['b'] ] ∧
      [ ['b'] ] ≠ ([] : List Tok) :=
  ⟨by decide,
   builder_successor_lists_nonempty [ ['a'], ['b'] ] 1 [ ['a'] ] [ ['b'] ] (by decide)⟩

/-- Claim C7: the normalizer (lowercase, replace the seven punctuation
characters by spaces, delete the three quote and parenthesis characters,
split on whitespace runs) is a total function whose tokens are non-empty,
contain no whitespace character and contain no uppercase ASCII letter. -/
theorem normalizer_tokens_wellformed (s : List Char) (t : Tok)
    (ht : t ∈ clean_up_corpus_string s) :
    t ≠ [] ∧ (∀ c ∈ t, c.isWhitespace = false) ∧ (∀ c ∈ t, c.isUpper = false) := by
  rw [clean_up_corpus_string, splitWs] at ht
  have h1 := splitWsAux_wellformed (clean_chars s) [] (by simp) t ht
  refine ⟨h1.1, h1.2, ?_⟩
  intro c hc
  rcases splitWsAux_chars_subset (clean_chars s) [] t ht c hc with h2 | h2
  · rcases mem_clean_chars h2 with h3 | ⟨x, h3⟩
    · rw [h3]
      decide
    · rw [h3]
      exact char_isUpper_toLower x
  · simp at h2

/-- Claim C7, witness: the token hi produced from the raw text Hi is
non-empty (and satisfies the remaining conjuncts by the theorem). -/
theorem normalizer_tokens_wellformed_witness : (['h', 'i'] : Tok) ≠ [] :=
  (normalizer_tokens_wellformed ['H', 'i'] ['h', 'i'] (by decide)).1

/-- Claim C8: on sequences of at least two tokens the sanitizer raises no
exception and computes exactly the two single-pass rules of the
specification: drop the last token iff it is one of and, i, mr, then drop
the first token of the possibly shortened sequence iff it is one of and,
him; each rule fires at most once and nothing else changes. -/
theorem sanitizer_two_rules (l : List Tok) (h : 2 ≤ l.length) :
    clean_up_markov_output l = some (sanitize_spec l) :=
  sanitizer_eq_spec h

/-- Claim C8, witness: the sequence [x, mr] is sanitized to [x]. -/
theorem sanitizer_two_rules_witness :
    clean_up_markov_output [ ['x'], ['m', 'r'] ] =
      some (sanitize_spec [ ['x'], ['m', 'r'] ]) :=
  sanitizer_two_rules [ ['x'], ['m', 'r'] ] (by decide)

/-- Claim C9, counterexample: with an unreadable corpus source the
pipeline does not surface a failure with no generated output; it returns
a generated, non-empty word list built from the sentinel-only model. -/
theorem unreadable_file_still_generates :
    ∃ l, generate_text none 1 0 none (fun _ => 0) = some l ∧ l ≠ [] :=
  ⟨[ ['.'] ], by decide, by decide⟩

/-- Claim C9 (amended): an unreadable corpus source yields the empty
corpus (plus a printed error message, outside this model) and the pipeline
then proceeds without crashing: for every order k >= 1 and length n it
returns the sentinel-derived output of k periods followed by n fillers
rather than a failure. -/
theorem unreadable_file_empty_corpus_output (k n : Nat) (rand : Nat → Nat)
    (hk : 1 ≤ k) :
    clean_up_corpus_string (return_corpus_text none) = [] ∧
      generate_text none k n none rand =
        some (List.replicate k terminator ++ List.replicate n filler) :=
  ⟨rfl, generate_text_unreadable k n rand hk⟩

/-- Claim C9 (amended), witness: instantiated at k = 1, n = 2 with a
constant random source. -/
theorem unreadable_file_empty_corpus_output_witness :
    clean_up_corpus_string (return_corpus_text none) = [] ∧
      generate_text none 1 2 none (fun _ => 3) =
        some (List.replicate 1 terminator ++ List.replicate 2 filler) :=
  unreadable_file_empty_corpus_output 1 2 (fun _ => 3) (by decide)

/-- Claim C10: the terminator is never appended as a successor during the
corpus scan: a cleaned corpus contains no terminator token, every stored
successor is the sentinel filler or a corpus token, no successor list
contains the terminator, and the sentinel key keeps exactly its single
filler successor for every corpus. -/
theorem builder_no_terminator_successors (raw : List Char) (k : Nat) (hk : 1 ≤ k) :
    terminator ∉ clean_up_corpus_string raw ∧
      (∀ s l, alookup (build_chain (clean_up_corpus_string raw) k) s = some l →
        ∀ w ∈ l, (s = List.replicate k terminator ∧ w = filler) ∨
          w ∈ clean_up_corpus_string raw) ∧
      (∀ s l, alookup (build_chain (clean_up_corpus_string raw) k) s = some l →
        terminator ∉ l) ∧
      alookup (build_chain (clean_up_corpus_string raw) k)
        (List.replicate k terminator) = some [filler] := by
  have hterm := terminator_not_mem_clean raw
  refine ⟨hterm, fun s l h w hw => build_chain_succ_mem h w hw, ?_, ?_⟩
  · intro s l h hmem
    rcases build_chain_succ_mem h terminator hmem with ⟨_, hfill⟩ | hcorp
    · exact absurd hfill (by decide)
    · exact hterm hcorp
  · exact sentinel_binding hk hterm

/-- Claim C10, witness: instantiated at the one-character raw text a with
k = 1: the cleaned corpus has no terminator token and the sentinel keeps
its single filler successor. -/
theorem builder_no_terminator_successors_witness :
    terminator ∉ clean_up_corpus_string ['a'] ∧
      alookup (build_chain (clean_up_corpus_string ['a']) 1)
        (List.replicate 1 terminator) = some [filler] :=
  ⟨(builder_no_terminator_successors ['a'] 1 (by decide)).1,
   (builder_no_terminator_successors ['a'] 1 (by decide)).2.2.2⟩
